import Mathlib

/-!
Verification development for the feast online-store core
(`sdk/python/feast/infra/gcp.py`): key codec, batch writer,
online read, delete-all, and the materialization pipeline.

Modelling conventions:
* machine timestamps are `Int` instants (timezone-aware datetimes compare
  by instant; `utils.make_tzaware` is the identity on instants);
* byte strings are `List Nat` with each byte reduced mod 256 where it
  matters;
* the Datastore backend is a flat association list from the hierarchical
  key `("Project", project, "Table", table, "Row", document_id)` --
  abbreviated to the triple `(project, table, document_id)` -- to the
  stored document;
* backend transaction commits are driven by an explicit outcome schedule
  (`TxOutcome`), one outcome per attempt, standing for the behaviour of
  the external Datastore service.
-/

namespace Feast

/-- Typed feature value, standing for the protobuf `ValueProto` used by
the source (int64, string and bytes variants suffice for the claims). -/
inductive Value where
  | int64Val : Int → Value
  | stringVal : String → Value
  | bytesVal : List Nat → Value
deriving DecidableEq, Repr

/-- A composite entity key: ordered (join-key name, typed value) pairs,
standing for `EntityKeyProto` (parallel `join_keys` / `entity_values`). -/
abbrev EntityKey := List (String × Value)

/-- Little-endian base-256 digits of a natural number, with explicit fuel
so that the definition is structurally recursive (fuel `n` suffices). -/
def natBytesAux : Nat → Nat → List Nat
  | 0, _ => []
  | fuel + 1, n => if n = 0 then [] else n % 256 :: natBytesAux fuel (n / 256)

/-- Little-endian base-256 digits of a natural number. -/
def natBytes (n : Nat) : List Nat := natBytesAux n n

/-- Recompose a natural number from little-endian base-256 digits. -/
def bytesToNat (l : List Nat) : Nat := l.foldr (fun b acc => b + 256 * acc) 0

/-- Code points of a string, as the byte-level model of its encoding. -/
def strBytes (s : String) : List Nat := s.data.map Char.toNat

/-- Four-byte little-endian length prefix followed by the payload. -/
def lengthPrefixed (bs : List Nat) : List Nat :=
  [bs.length % 256, bs.length / 256 % 256,
   bs.length / 2 ^ 16 % 256, bs.length / 2 ^ 24 % 256] ++ bs

/-- Type tag of a value in the self-describing binary layout. -/
def valueTypeTag : Value → Nat
  | .int64Val _ => 1
  | .stringVal _ => 2
  | .bytesVal _ => 3

/-- Payload bytes of a value (sign byte plus magnitude digits for
integers, code points for strings, raw bytes for byte strings). -/
def valuePayload : Value → List Nat
  | .int64Val n => (if n < 0 then 1 else 0) :: natBytes n.natAbs
  | .stringVal s => strBytes s
  | .bytesVal b => b

/-- Serialization of a single value, standing for
`ValueProto.SerializeToString()`: type tag followed by the payload. -/
def serializeValue (v : Value) : List Nat := valueTypeTag v :: valuePayload v

/-- Parse a serialized value back, standing for
`ValueProto.ParseFromString`; `none` on bytes no value serializes to. -/
def parseValue : List Nat → Option Value
  | 1 :: s :: ds =>
      if s = 0 then some (.int64Val (bytesToNat ds))
      else if s = 1 then some (.int64Val (-(bytesToNat ds : Int)))
      else none
  | 2 :: cs => some (.stringVal (String.mk (cs.map Char.ofNat)))
  | 3 :: bs => some (.bytesVal bs)
  | _ => none

/-- Name ordering on (join-key name, value) pairs. -/
def nameLe (a b : String × Value) : Prop := a.1 ≤ b.1

instance : DecidableRel nameLe := fun a b => inferInstanceAs (Decidable (a.1 ≤ b.1))

instance : IsTotal (String × Value) nameLe := ⟨fun a b => le_total a.1 b.1⟩

instance : IsTrans (String × Value) nameLe := ⟨fun _ _ _ h h' => le_trans h h'⟩

/-- Modelled from the spec: `serialize_entity_key`
(`feast.infra.key_encoding_utils`, not included under `src/`).
Serializes join-key names and typed values in canonical (name-sorted)
order using a fixed, self-describing binary layout: per pair, the
length-prefixed name followed by the value's type tag and its
length-prefixed payload. -/
def serialize_entity_key (k : EntityKey) : List Nat :=
  (List.insertionSort nameLe k).foldr
    (fun p acc =>
      lengthPrefixed (strBytes p.1) ++
        valueTypeTag p.2 :: lengthPrefixed (valuePayload p.2) ++ acc)
    []

/-- Order-preserving serialization of an entity key, standing for
`EntityKeyProto.SerializeToString()` (protobuf keeps field order). -/
def entityKeyToBytes (k : EntityKey) : List Nat :=
  k.foldr
    (fun p acc =>
      lengthPrefixed (strBytes p.1) ++
        valueTypeTag p.2 :: lengthPrefixed (valuePayload p.2) ++ acc)
    []

/-- Final 64-bit avalanche mixer (MurmurHash3 style), on `Nat` mod 2^64. -/
def fmix64 (k : Nat) : Nat :=
  let k1 := (k ^^^ (k >>> 33)) % 2 ^ 64
  let k2 := (k1 * 0xff51afd7ed558ccd) % 2 ^ 64
  let k3 := (k2 ^^^ (k2 >>> 33)) % 2 ^ 64
  let k4 := (k3 * 0xc4ceb9fe1a85ec53) % 2 ^ 64
  (k4 ^^^ (k4 >>> 33)) % 2 ^ 64

/-- The eight little-endian bytes of a 64-bit accumulator. -/
def toLEBytes8 (n : Nat) : List Nat :=
  [n % 256, n / 2 ^ 8 % 256, n / 2 ^ 16 % 256, n / 2 ^ 24 % 256,
   n / 2 ^ 32 % 256, n / 2 ^ 40 % 256, n / 2 ^ 48 % 256, n / 2 ^ 56 % 256]

/-- Modelled from the spec: `mmh3.hash_bytes` (external library). A
deterministic, non-cryptographic, MurmurHash3-style 128-bit digest of the
input bytes: two 64-bit accumulators mixed per byte, emitted as 16 bytes. -/
def hash_bytes (bs : List Nat) : List Nat :=
  let p := bs.foldl
    (fun (h : Nat × Nat) b =>
      (fmix64 ((h.1 ^^^ b % 256) * 0x87c37b91114253d5 % 2 ^ 64 + 0x52dce729),
       fmix64 ((h.2 ^^^ (h.1 + b % 256)) * 0x4cf5ad432745937f % 2 ^ 64 + 0x38495ab5)))
    (0x9368b34567ab12cd, 0x43fe98b1acd87e35)
  toLEBytes8 p.1 ++ toLEBytes8 p.2

/-- The lowercase hexadecimal digit character for `n < 16`: code point
48 + n for a decimal digit, 87 + n for a letter among a..f. -/
def hexDigit (n : Nat) : Char :=
  if n < 10 then Char.ofNat (48 + n) else Char.ofNat (87 + n)

/-- The sixteen lowercase hexadecimal digit characters, in order. -/
def hexDigitChars : List Char := (List.range 16).map hexDigit

/-- Two lowercase hexadecimal characters of one byte, most significant
nibble first (as `bytes.hex()` renders each byte). -/
def byteToHex (b : Nat) : List Char := [hexDigit (b / 16 % 16), hexDigit (b % 16)]

/-- Lowercase hexadecimal rendition of a byte string (`bytes.hex()`). -/
def bytesToHex (bs : List Nat) : String :=
  String.mk (bs.foldr (fun b acc => byteToHex b ++ acc) [])

/-- Datastore row identifier of an entity key:
`mmh3.hash_bytes(serialize_entity_key(entity_key)).hex()`. -/
def compute_datastore_entity_id (entity_key : EntityKey) : String :=
  bytesToHex (hash_bytes (serialize_entity_key entity_key))

/-- The identity on timestamp instants: `utils.make_tzaware` attaches a
UTC timezone to naive datetimes, which does not move the instant the
value denotes, and timezone-aware datetimes compare by instant. -/
def make_tzaware (t : Int) : Int := t

/-- One row handed to the batch writer: the tuple
`(entity_key, features, timestamp, created_ts)`. -/
structure Row where
  entity_key : EntityKey
  features : List (String × Value)
  timestamp : Int
  created_ts : Option Int
deriving DecidableEq, Repr

/-- A stored Datastore document for one row: the serialized entity key,
the mapping feature name to serialized value, and the two timestamps. -/
structure DsEntity where
  key : List Nat
  values : List (String × List Nat)
  event_ts : Int
  created_ts : Option Int
deriving DecidableEq, Repr

/-- Datastore key of a row document, abbreviating the hierarchical path
`("Project", project, "Table", table, "Row", document_id)`. -/
abbrev DsKey := String × String × String

/-- The backing store: an association list from row keys to documents
(`storePut` keeps at most one binding per key). -/
abbrev Store := List (DsKey × DsEntity)

/-- Fetch the document at a key (`client.get(key)`). -/
def storeGet (st : Store) (k : DsKey) : Option DsEntity :=
  (st.find? (fun e => decide (e.1 = k))).map (fun e => e.2)

/-- Upsert the document at a key (`client.put(entity)`). -/
def storePut (st : Store) (k : DsKey) (v : DsEntity) : Store :=
  (k, v) :: st.filter (fun e => decide (e.1 ≠ k))

/-- The document `_write_minibatch` builds for a row before `client.put`:
all four properties are replaced from the incoming row. -/
def entityOfRow (r : Row) : DsEntity :=
  { key := entityKeyToBytes r.entity_key
    values := r.features.map (fun kv => (kv.1, serializeValue kv.2))
    event_ts := make_tzaware r.timestamp
    created_ts := r.created_ts.map make_tzaware }

/-- The second freshness guard of `_write_minibatch`: the incoming and
existing created timestamps are both present and the existing one is
strictly newer. -/
def createdNewer (incoming existing : Option Int) : Bool :=
  match incoming, existing with
  | some c, some ec => decide (ec > make_tzaware c)
  | _, _ => false

/-- One iteration of the row loop of `_write_minibatch`: fetch the
current document, apply the freshness rule, and either skip (`continue`)
or upsert the full document. Returns the store and whether the row was
written (the flag drives `row_count` and the progress callback). -/
def writeRow (project tableName : String) (st : Store) (r : Row) : Store × Bool :=
  let document_id := compute_datastore_entity_id r.entity_key
  let key : DsKey := (project, tableName, document_id)
  match storeGet st key with
  | some entity =>
      if entity.event_ts > make_tzaware r.timestamp then (st, false)
      else if entity.event_ts = make_tzaware r.timestamp ∧
          createdNewer r.created_ts entity.created_ts = true then (st, false)
      else (storePut st key (entityOfRow r), true)
  | none => (storePut st key (entityOfRow r), true)

/-- The transaction body of `_write_minibatch`: process the rows in input
order, returning the resulting store and the progress-callback
invocations of this attempt (one `1` per written row). -/
def processRows (project tableName : String) (st : Store) : List Row → Store × List Nat
  | [] => (st, [])
  | r :: rest =>
      let step := writeRow project tableName st r
      let tail := processRows project tableName step.1 rest
      (tail.1, (if step.2 then [1] else []) ++ tail.2)

/-- Outcome of one backend transaction commit: success, a transient
conflict (`google.api_core.exceptions.Conflict`), or any other backend
error. -/
inductive TxOutcome where
  | ok
  | conflict
  | fatal
deriving DecidableEq, Repr

/-- Errors a minibatch write can surface to its caller. -/
inductive WError where
  | conflict
  | backend
deriving DecidableEq, Repr

/-- The retry bound of `_write_minibatch` (`num_retries_on_conflict`). -/
def num_retries_on_conflict : Nat := 3

/-- The retry loop of `_write_minibatch` over the remaining attempt
indices. Each attempt re-runs the transaction body (rolled back unless
the commit succeeds) and emits that attempt's progress invocations; a
conflict on the last attempt re-raises, any other backend error
propagates at once. -/
def writeMinibatchGo (outcome : Nat → TxOutcome) (committed : Store)
    (ev : List Nat) : List Nat → List Nat → List Nat × Except WError Store
  | [], acc => (acc, .error .conflict)
  | n :: rest, acc =>
      match outcome n with
      | .ok => (acc ++ ev, .ok committed)
      | .fatal => (acc ++ ev, .error .backend)
      | .conflict =>
          match rest with
          | [] => (acc ++ ev, .error .conflict)
          | _ :: _ => writeMinibatchGo outcome committed ev rest (acc ++ ev)

/-- `_write_minibatch`: run the transaction body under the per-attempt
outcome schedule, retrying the entire minibatch on transient conflicts up
to `num_retries_on_conflict` attempts. Returns every progress-callback
invocation made, and either the committed store or the error raised. -/
def _write_minibatch (outcome : Nat → TxOutcome) (project tableName : String)
    (data : List Row) (st : Store) : List Nat × Except WError Store :=
  let r := processRows project tableName st data
  writeMinibatchGo outcome r.1 r.2 (List.range num_retries_on_conflict) []

/-- The chunking loop of `_to_minibatches`, with explicit fuel so the
definition is structurally recursive (fuel `data.length` suffices):
repeatedly slice off `batch_size` rows, stopping at an empty slice. -/
def toMinibatchesAux (batch_size : Nat) : Nat → List Row → List (List Row)
  | 0, _ => []
  | fuel + 1, data =>
      let batch := data.take batch_size
      if batch.isEmpty then []
      else batch :: toMinibatchesAux batch_size fuel (data.drop batch_size)

/-- `_to_minibatches`: split the input rows into minibatches of at most
`batch_size` rows (default 50, the Datastore transaction-size bound). -/
def _to_minibatches (data : List Row) (batch_size : Nat := 50) : List (List Row) :=
  toMinibatchesAux batch_size data.length data

/-- Sequential schedule of the minibatch worker pool: commit the
minibatches in order, threading the store; the outcome schedule gives
each minibatch its own per-attempt behaviour. On an error the minibatches
already committed are kept and the error is surfaced. -/
def writeBatches (outcome : Nat → Nat → TxOutcome) (project tableName : String) :
    List (List Row) → Store → Store × List Nat × Option WError
  | [], st => (st, [], none)
  | b :: bs, st =>
      match _write_minibatch (outcome 0) project tableName b st with
      | (ev, .error e) => (st, ev, some e)
      | (ev, .ok st') =>
          let rest := writeBatches (fun i => outcome (i + 1)) project tableName bs st'
          (rest.1, ev ++ rest.2.1, rest.2.2)

/-- `online_write_batch`: partition the rows with `_to_minibatches` and
commit every minibatch with `_write_minibatch`. -/
def online_write_batch (outcome : Nat → Nat → TxOutcome) (project tableName : String)
    (data : List Row) (st : Store) : Store × List Nat × Option WError :=
  writeBatches outcome project tableName (_to_minibatches data) st

/-- Whether a store entry lives under the row path of the given project
and table (the `kind="Row", ancestor=key` query of `_delete_all_values`). -/
def underTable (project tableName : String) (k : DsKey) : Bool :=
  decide (k.1 = project) && decide (k.2.1 = tableName)

/-- The page size of each fetch in `_delete_all_values`. -/
def deletePageSize : Nat := 1000

/-- The fetch/delete loop of `_delete_all_values`, with explicit fuel so
the definition is structurally recursive (fuel `st.length` suffices):
fetch up to `deletePageSize` row documents under the table's key path,
delete each fetched document by its key, and repeat until a fetch returns
no rows. -/
def deleteAllAux (project tableName : String) : Nat → Store → Store
  | 0, st => st
  | fuel + 1, st =>
      let page := (st.filter (fun e => underTable project tableName e.1)).take deletePageSize
      if page.isEmpty then st
      else
        deleteAllAux project tableName fuel
          (st.filter (fun e => decide (e.1 ∉ page.map (fun q => q.1))))

/-- `_delete_all_values`: remove every stored row document under the
table's key path, in pages of at most `deletePageSize` rows. -/
def _delete_all_values (st : Store) (project tableName : String) : Store :=
  deleteAllAux project tableName st.length st

/-- A feature view as the materialization pipeline sees it: its name and
its ordered list of materialization intervals. -/
structure FeatureViewM where
  name : String
  materialization_intervals : List (Int × Int)
deriving DecidableEq, Repr

/-- `materialize_single_feature_view`, from the commit stage on: the pull,
field-mapping and convert stages are external collaborators and enter as
the ready list `rows_to_write`; the registry collaborator is the list of
`apply_feature_view` calls made so far. The write runs first; only on its
success is the interval appended and the view applied to the registry. -/
def materialize_single_feature_view (outcome : Nat → Nat → TxOutcome)
    (project : String) (fv : FeatureViewM) (rows_to_write : List Row)
    (start_date end_date : Int) (st : Store)
    (applied : List (String × FeatureViewM)) :
    (FeatureViewM × Store × List (String × FeatureViewM)) × Option WError :=
  let start_date := make_tzaware start_date
  let end_date := make_tzaware end_date
  match online_write_batch outcome project fv.name rows_to_write st with
  | (st', _, some e) => ((fv, st', applied), some e)
  | (st', _, none) =>
      let fv' := { fv with
        materialization_intervals :=
          fv.materialization_intervals ++ [(start_date, end_date)] }
      ((fv', st', applied ++ [(project, fv')]), none)

/-- `online_read`: one result per input key in input order; a present
document yields its event timestamp and the parsed feature mapping, an
absent one yields `(none, none)`. -/
def online_read (project tableName : String) (st : Store) (entity_keys : List EntityKey) :
    List (Option Int × Option (List (String × Option Value))) :=
  entity_keys.map fun ek =>
    let document_id := compute_datastore_entity_id ek
    match storeGet st (project, tableName, document_id) with
    | some v => (some v.event_ts, some (v.values.map (fun kv => (kv.1, parseValue kv.2))))
    | none => (none, none)

/-! ### Helper lemmas: serialization round-trip -/

theorem bytesToNat_natBytesAux (fuel : Nat) :
    ∀ n : Nat, n ≤ fuel → bytesToNat (natBytesAux fuel n) = n := by
  induction fuel with
  | zero =>
      intro n hn
      interval_cases n
      simp [natBytesAux, bytesToNat]
  | succ fuel ih =>
      intro n hn
      by_cases h0 : n = 0
      · simp [natBytesAux, h0, bytesToNat]
      · have hpos : 0 < n := Nat.pos_of_ne_zero h0
        have hdiv : n / 256 ≤ fuel := by
          have : n / 256 < n := Nat.div_lt_self hpos (by norm_num)
          omega
        simp only [natBytesAux, h0, if_false, bytesToNat, List.foldr_cons]
        have := ih (n / 256) hdiv
        simp only [bytesToNat] at this
        rw [this]
        omega

theorem bytesToNat_natBytes (n : Nat) : bytesToNat (natBytes n) = n :=
  bytesToNat_natBytesAux n n le_rfl

theorem parseValue_serializeValue (v : Value) : parseValue (serializeValue v) = some v := by
  cases v with
  | int64Val n =>
      by_cases hn : n < 0
      · have habs : ((n.natAbs : Int)) = -n := by omega
        simp [serializeValue, valueTypeTag, valuePayload, hn, parseValue,
          bytesToNat_natBytes, habs]
      · have habs : ((n.natAbs : Int)) = n := by omega
        simp [serializeValue, valueTypeTag, valuePayload, hn, parseValue,
          bytesToNat_natBytes, habs]
  | stringVal s =>
      simp only [serializeValue, valueTypeTag, valuePayload, strBytes, parseValue,
        List.map_map]
      have : (fun c => Char.ofNat (Char.toNat c)) = fun c : Char => c := by
        funext c
        exact Char.ofNat_toNat c
      simp [Function.comp_def, this]
  | bytesVal b => rfl

/-! ### Helper lemmas: store operations -/

theorem storeGet_storePut_same (st : Store) (k : DsKey) (v : DsEntity) :
    storeGet (storePut st k v) k = some v := by
  simp [storeGet, storePut, List.find?_cons]

/-! ### Helper lemmas: canonical (name-sorted) key serialization -/

/-- Strict name ordering on (join-key name, value) pairs. -/
def nameLt (a b : String × Value) : Prop := a.1 < b.1

instance : IsAntisymm (String × Value) nameLt :=
  ⟨fun _ _ h h' => absurd h' (lt_asymm h)⟩

theorem insertionSort_nameLe_eq_of_perm (k1 k2 : EntityKey) (hperm : k1.Perm k2)
    (hnodup : (k1.map Prod.fst).Nodup) :
    List.insertionSort nameLe k1 = List.insertionSort nameLe k2 := by
  have h1 : (List.insertionSort nameLe k1).Perm k1 := List.perm_insertionSort _ _
  have h2 : (List.insertionSort nameLe k2).Perm k2 := List.perm_insertionSort _ _
  have hp : (List.insertionSort nameLe k1).Perm (List.insertionSort nameLe k2) :=
    h1.trans (hperm.trans h2.symm)
  have hstrict : ∀ l : EntityKey, (l.map Prod.fst).Nodup →
      List.Sorted nameLe l → List.Sorted nameLt l := by
    intro l hnd hs
    have hne : l.Pairwise (fun a b : String × Value => a.1 ≠ b.1) :=
      List.pairwise_map.mp hnd
    exact (hs.and hne).imp (fun h => lt_of_le_of_ne h.1 h.2)
  have hnd1 : ((List.insertionSort nameLe k1).map Prod.fst).Nodup :=
    ((h1.map Prod.fst).nodup_iff).mpr hnodup
  have hnd2 : ((List.insertionSort nameLe k2).map Prod.fst).Nodup := by
    refine ((h2.map Prod.fst).nodup_iff).mpr ?_
    exact ((hperm.map Prod.fst).nodup_iff).mp hnodup
  exact List.eq_of_perm_of_sorted hp
    (hstrict _ hnd1 (List.sorted_insertionSort nameLe k1))
    (hstrict _ hnd2 (List.sorted_insertionSort nameLe k2))

theorem serialize_entity_key_perm (k1 k2 : EntityKey) (hperm : k1.Perm k2)
    (hnodup : (k1.map Prod.fst).Nodup) :
    serialize_entity_key k1 = serialize_entity_key k2 := by
  unfold serialize_entity_key
  rw [insertionSort_nameLe_eq_of_perm k1 k2 hperm hnodup]

/-! ### Helper lemmas: digest shape and hexadecimal rendering -/

theorem hash_bytes_length (bs : List Nat) : (hash_bytes bs).length = 16 := by
  simp [hash_bytes, toLEBytes8]

theorem hexDigit_mem (i : Nat) (h : i < 16) : hexDigit i ∈ hexDigitChars := by
  revert h
  revert i
  decide

theorem hexFold_length (bs : List Nat) :
    (bs.foldr (fun b acc => byteToHex b ++ acc) []).length = 2 * bs.length := by
  induction bs with
  | nil => rfl
  | cons b rest ih =>
      rw [List.foldr_cons, List.length_append, ih]
      simp [byteToHex]
      ring

theorem hexFold_mem (bs : List Nat) (c : Char)
    (hc : c ∈ bs.foldr (fun b acc => byteToHex b ++ acc) []) : c ∈ hexDigitChars := by
  induction bs with
  | nil => simp at hc
  | cons b rest ih =>
      simp only [List.foldr_cons, List.mem_append] at hc
      rcases hc with hc | hc
      · simp only [byteToHex, List.mem_cons, List.not_mem_nil, or_false] at hc
        rcases hc with hc | hc
        · exact hc ▸ hexDigit_mem _ (Nat.mod_lt _ (by norm_num))
        · exact hc ▸ hexDigit_mem _ (Nat.mod_lt _ (by norm_num))
      · exact ih hc

theorem bytesToHex_length (bs : List Nat) : (bytesToHex bs).length = 2 * bs.length := by
  simp [bytesToHex, hexFold_length]

/-! ### Helper lemmas: the row loop of the batch writer -/

/-- An outcome schedule on which every transaction commit succeeds. -/
def okOutcome : Nat → Nat → TxOutcome := fun _ _ => .ok

theorem writeRow_none (p tn : String) (st : Store) (r : Row)
    (h : storeGet st (p, tn, compute_datastore_entity_id r.entity_key) = none) :
    writeRow p tn st r =
      (storePut st (p, tn, compute_datastore_entity_id r.entity_key) (entityOfRow r), true) := by
  simp [writeRow, h]

theorem writeRow_skip_newer (p tn : String) (st : Store) (r : Row) (e : DsEntity)
    (h : storeGet st (p, tn, compute_datastore_entity_id r.entity_key) = some e)
    (hts : e.event_ts > make_tzaware r.timestamp) :
    writeRow p tn st r = (st, false) := by
  simp [writeRow, h, hts]

theorem writeRow_replace_newer (p tn : String) (st : Store) (r : Row) (e : DsEntity)
    (h : storeGet st (p, tn, compute_datastore_entity_id r.entity_key) = some e)
    (hts : make_tzaware r.timestamp > e.event_ts) :
    writeRow p tn st r =
      (storePut st (p, tn, compute_datastore_entity_id r.entity_key) (entityOfRow r), true) := by
  have h1 : ¬(e.event_ts > make_tzaware r.timestamp) := by omega
  have h2 : ¬(e.event_ts = make_tzaware r.timestamp ∧
      createdNewer r.created_ts e.created_ts = true) := by
    rintro ⟨heq, -⟩
    omega
  simp [writeRow, h, h1, h2]

theorem writeRow_eq_ts (p tn : String) (st : Store) (r : Row) (e : DsEntity)
    (h : storeGet st (p, tn, compute_datastore_entity_id r.entity_key) = some e)
    (hts : e.event_ts = make_tzaware r.timestamp) :
    writeRow p tn st r =
      if createdNewer r.created_ts e.created_ts then (st, false)
      else (storePut st (p, tn, compute_datastore_entity_id r.entity_key) (entityOfRow r), true) := by
  have h1 : ¬(e.event_ts > make_tzaware r.timestamp) := by omega
  cases hcn : createdNewer r.created_ts e.created_ts with
  | true => simp [writeRow, h, h1, hts, hcn]
  | false => simp [writeRow, h, h1, hts, hcn]

theorem online_write_batch_single (o : Nat → Nat → TxOutcome) (ho : o 0 0 = .ok)
    (p tn : String) (st : Store) (r : Row) :
    online_write_batch o p tn [r] st =
      ((writeRow p tn st r).1, (if (writeRow p tn st r).2 then [1] else []), none) := by
  have hmb : _to_minibatches [r] = [[r]] := rfl
  have hr : List.range num_retries_on_conflict = [0, 1, 2] := rfl
  simp only [online_write_batch, hmb, writeBatches, _write_minibatch, processRows, hr,
    writeMinibatchGo, ho, List.append_nil, List.nil_append]

/-! ### Claims C1, C2, C3 -/

/-- C1: for rows r1, r2 with the same entity key and
`r1.eventTimestamp < r2.eventTimestamp`, writing r1 then r2 through
`online_write_batch` leaves the stored record equal to r2, and writing r2
then r1 also leaves the stored record equal to r2; in general an existing
record with a strictly newer event timestamp is never overwritten, while
an incoming row with a strictly newer event timestamp fully replaces the
stored feature mapping, event timestamp and created timestamp. -/
theorem freshness_rule_monotonic (p tn : String) (k : EntityKey)
    (f1 f2 : List (String × Value)) (t1 t2 : Int) (c1 c2 : Option Int) (st : Store)
    (hfresh : t1 < t2)
    (hnone : storeGet st (p, tn, compute_datastore_entity_id k) = none) :
    storeGet (online_write_batch okOutcome p tn [⟨k, f2, t2, c2⟩]
        (online_write_batch okOutcome p tn [⟨k, f1, t1, c1⟩] st).1).1
        (p, tn, compute_datastore_entity_id k) = some (entityOfRow ⟨k, f2, t2, c2⟩) ∧
    storeGet (online_write_batch okOutcome p tn [⟨k, f1, t1, c1⟩]
        (online_write_batch okOutcome p tn [⟨k, f2, t2, c2⟩] st).1).1
        (p, tn, compute_datastore_entity_id k) = some (entityOfRow ⟨k, f2, t2, c2⟩) ∧
    (∀ (st' : Store) (r : Row) (e : DsEntity),
      storeGet st' (p, tn, compute_datastore_entity_id r.entity_key) = some e →
      e.event_ts > make_tzaware r.timestamp → writeRow p tn st' r = (st', false)) ∧
    (∀ (st' : Store) (r : Row) (e : DsEntity),
      storeGet st' (p, tn, compute_datastore_entity_id r.entity_key) = some e →
      make_tzaware r.timestamp > e.event_ts →
      writeRow p tn st' r =
        (storePut st' (p, tn, compute_datastore_entity_id r.entity_key) (entityOfRow r), true)) := by
  have h1 := writeRow_none p tn st ⟨k, f1, t1, c1⟩ hnone
  have h2 := writeRow_none p tn st ⟨k, f2, t2, c2⟩ hnone
  have hget1 : storeGet
      (storePut st (p, tn, compute_datastore_entity_id k) (entityOfRow ⟨k, f1, t1, c1⟩))
      (p, tn, compute_datastore_entity_id k) = some (entityOfRow ⟨k, f1, t1, c1⟩) :=
    storeGet_storePut_same _ _ _
  have hget2 : storeGet
      (storePut st (p, tn, compute_datastore_entity_id k) (entityOfRow ⟨k, f2, t2, c2⟩))
      (p, tn, compute_datastore_entity_id k) = some (entityOfRow ⟨k, f2, t2, c2⟩) :=
    storeGet_storePut_same _ _ _
  refine ⟨?_, ?_, fun st' r e h hts => writeRow_skip_newer p tn st' r e h hts,
    fun st' r e h hts => writeRow_replace_newer p tn st' r e h hts⟩
  · rw [online_write_batch_single okOutcome rfl, online_write_batch_single okOutcome rfl,
      h1]
    have hrep := writeRow_replace_newer p tn
      (storePut st (p, tn, compute_datastore_entity_id k) (entityOfRow ⟨k, f1, t1, c1⟩))
      ⟨k, f2, t2, c2⟩ (entityOfRow ⟨k, f1, t1, c1⟩) hget1
      (by simp only [entityOfRow, make_tzaware]; exact hfresh)
    simp only [] at hrep ⊢
    rw [hrep]
    exact storeGet_storePut_same _ _ _
  · rw [online_write_batch_single okOutcome rfl, online_write_batch_single okOutcome rfl,
      h2]
    have hskip := writeRow_skip_newer p tn
      (storePut st (p, tn, compute_datastore_entity_id k) (entityOfRow ⟨k, f2, t2, c2⟩))
      ⟨k, f1, t1, c1⟩ (entityOfRow ⟨k, f2, t2, c2⟩) hget2
      (by simp only [entityOfRow, make_tzaware]; exact hfresh)
    simp only [] at hskip ⊢
    rw [hskip]
    exact hget2

/-- Witness for C1 at a concrete key, store and timestamps. -/
theorem freshness_rule_monotonic_witness :
    (0 : Int) < 5 ∧
    storeGet ([] : Store)
      ("p", "t", compute_datastore_entity_id [("driver", Value.int64Val 1)]) = none ∧
    storeGet (online_write_batch okOutcome "p" "t"
        [⟨[("driver", Value.int64Val 1)], [("v", Value.int64Val 2)], 5, none⟩]
        (online_write_batch okOutcome "p" "t"
          [⟨[("driver", Value.int64Val 1)], [("v", Value.int64Val 1)], 0, none⟩] []).1).1
        ("p", "t", compute_datastore_entity_id [("driver", Value.int64Val 1)]) =
      some (entityOfRow ⟨[("driver", Value.int64Val 1)], [("v", Value.int64Val 2)], 5, none⟩) :=
  ⟨by norm_num, rfl,
    (freshness_rule_monotonic "p" "t" [("driver", Value.int64Val 1)]
      [("v", Value.int64Val 1)] [("v", Value.int64Val 2)] 0 5 none none []
      (by norm_num) rfl).1⟩

/-- C2: rows with the same entity key, equal event timestamps and both
created timestamps present with `t_a < t_b`: the row carrying `t_b` is
the stored record after both writes, in either write order; and with
equal event timestamps and both created timestamps present, the write is
skipped exactly when the existing created timestamp is strictly newer
than the incoming one. -/
theorem tie_break_created (p tn : String) (k : EntityKey)
    (fa fb : List (String × Value)) (t ca cb : Int) (st : Store)
    (hc : ca < cb)
    (hnone : storeGet st (p, tn, compute_datastore_entity_id k) = none) :
    storeGet (online_write_batch okOutcome p tn [⟨k, fb, t, some cb⟩]
        (online_write_batch okOutcome p tn [⟨k, fa, t, some ca⟩] st).1).1
        (p, tn, compute_datastore_entity_id k) = some (entityOfRow ⟨k, fb, t, some cb⟩) ∧
    storeGet (online_write_batch okOutcome p tn [⟨k, fa, t, some ca⟩]
        (online_write_batch okOutcome p tn [⟨k, fb, t, some cb⟩] st).1).1
        (p, tn, compute_datastore_entity_id k) = some (entityOfRow ⟨k, fb, t, some cb⟩) ∧
    (∀ (st' : Store) (r : Row) (e : DsEntity) (c ec : Int),
      storeGet st' (p, tn, compute_datastore_entity_id r.entity_key) = some e →
      e.event_ts = make_tzaware r.timestamp →
      r.created_ts = some c → e.created_ts = some ec →
      (writeRow p tn st' r = (st', false) ↔ ec > make_tzaware c)) := by
  have ha := writeRow_none p tn st ⟨k, fa, t, some ca⟩ hnone
  have hb := writeRow_none p tn st ⟨k, fb, t, some cb⟩ hnone
  have hgeta : storeGet
      (storePut st (p, tn, compute_datastore_entity_id k) (entityOfRow ⟨k, fa, t, some ca⟩))
      (p, tn, compute_datastore_entity_id k) = some (entityOfRow ⟨k, fa, t, some ca⟩) :=
    storeGet_storePut_same _ _ _
  have hgetb : storeGet
      (storePut st (p, tn, compute_datastore_entity_id k) (entityOfRow ⟨k, fb, t, some cb⟩))
      (p, tn, compute_datastore_entity_id k) = some (entityOfRow ⟨k, fb, t, some cb⟩) :=
    storeGet_storePut_same _ _ _
  refine ⟨?_, ?_, ?_⟩
  · rw [online_write_batch_single okOutcome rfl, online_write_batch_single okOutcome rfl,
      ha]
    have hw := writeRow_eq_ts p tn
      (storePut st (p, tn, compute_datastore_entity_id k) (entityOfRow ⟨k, fa, t, some ca⟩))
      ⟨k, fb, t, some cb⟩ (entityOfRow ⟨k, fa, t, some ca⟩) hgeta rfl
    have hcn : createdNewer (some cb) ((entityOfRow ⟨k, fa, t, some ca⟩).created_ts) = false := by
      show decide ((ca : Int) > cb) = false
      simp only [decide_eq_false_iff_not]
      omega
    rw [hcn] at hw
    simp only [Bool.false_eq_true, if_false] at hw
    rw [hw]
    exact storeGet_storePut_same _ _ _
  · rw [online_write_batch_single okOutcome rfl, online_write_batch_single okOutcome rfl,
      hb]
    have hw := writeRow_eq_ts p tn
      (storePut st (p, tn, compute_datastore_entity_id k) (entityOfRow ⟨k, fb, t, some cb⟩))
      ⟨k, fa, t, some ca⟩ (entityOfRow ⟨k, fb, t, some cb⟩) hgetb rfl
    have hcn : createdNewer (some ca) ((entityOfRow ⟨k, fb, t, some cb⟩).created_ts) = true := by
      show decide ((cb : Int) > ca) = true
      simp only [decide_eq_true_eq]
      omega
    rw [hcn] at hw
    simp only [if_true] at hw
    rw [hw]
    exact hgetb
  · intro st' r e c ec hs hts hrc hec
    have hw := writeRow_eq_ts p tn st' r e hs hts
    rw [hrc, hec] at hw
    by_cases hgt : ec > make_tzaware c
    · have hcn : createdNewer (some c) (some ec) = true := by
        simp only [createdNewer, decide_eq_true_eq]
        exact hgt
      rw [hcn] at hw
      simp only [if_true] at hw
      rw [hw]
      simp [hgt]
    · have hcn : createdNewer (some c) (some ec) = false := by
        simp only [createdNewer, decide_eq_false_iff_not]
        exact hgt
      rw [hcn] at hw
      simp only [Bool.false_eq_true, if_false] at hw
      rw [hw]
      constructor
      · intro heq
        exact absurd (congrArg Prod.snd heq) (by simp)
      · intro h
        exact absurd h hgt

/-- Witness for C2 at a concrete key, store and created timestamps. -/
theorem tie_break_created_witness :
    (1 : Int) < 2 ∧
    storeGet ([] : Store)
      ("p", "t", compute_datastore_entity_id [("driver", Value.int64Val 7)]) = none ∧
    storeGet (online_write_batch okOutcome "p" "t"
        [⟨[("driver", Value.int64Val 7)], [("v", Value.int64Val 4)], 9, some 1⟩]
        (online_write_batch okOutcome "p" "t"
          [⟨[("driver", Value.int64Val 7)], [("v", Value.int64Val 9)], 9, some 2⟩] []).1).1
        ("p", "t", compute_datastore_entity_id [("driver", Value.int64Val 7)]) =
      some (entityOfRow ⟨[("driver", Value.int64Val 7)], [("v", Value.int64Val 9)], 9, some 2⟩) :=
  ⟨by norm_num, rfl,
    (tie_break_created "p" "t" [("driver", Value.int64Val 7)]
      [("v", Value.int64Val 4)] [("v", Value.int64Val 9)] 9 1 2 []
      (by norm_num) rfl).2.1⟩

/-- C3: entity keys containing identical (join-key name, value) pairs in
any order produce the same row identifier, and the identifier is the hash
digest of the serialized key rendered as lowercase hexadecimal text of
fixed length 32 (a 128-bit digest). -/
theorem row_identifier_deterministic (k1 k2 : EntityKey) (hperm : k1.Perm k2)
    (hnodup : (k1.map Prod.fst).Nodup) :
    compute_datastore_entity_id k1 = compute_datastore_entity_id k2 ∧
    compute_datastore_entity_id k1 = bytesToHex (hash_bytes (serialize_entity_key k1)) ∧
    (hash_bytes (serialize_entity_key k1)).length = 16 ∧
    (compute_datastore_entity_id k1).length = 32 ∧
    ∀ c ∈ (compute_datastore_entity_id k1).data, c ∈ hexDigitChars := by
  refine ⟨?_, rfl, hash_bytes_length _, ?_, ?_⟩
  · unfold compute_datastore_entity_id
    rw [serialize_entity_key_perm k1 k2 hperm hnodup]
  · show (bytesToHex (hash_bytes (serialize_entity_key k1))).length = 32
    rw [bytesToHex_length, hash_bytes_length]
  · intro c hc
    exact hexFold_mem _ c hc

/-- Witness for C3 at a concrete pair of reordered entity keys. -/
theorem row_identifier_deterministic_witness :
    ([("a", Value.int64Val 1), ("b", Value.stringVal "x")] : EntityKey).Perm
      [("b", Value.stringVal "x"), ("a", Value.int64Val 1)] ∧
    (([("a", Value.int64Val 1), ("b", Value.stringVal "x")] : EntityKey).map Prod.fst).Nodup ∧
    compute_datastore_entity_id [("a", Value.int64Val 1), ("b", Value.stringVal "x")] =
      compute_datastore_entity_id [("b", Value.stringVal "x"), ("a", Value.int64Val 1)] ∧
    (compute_datastore_entity_id [("a", Value.int64Val 1), ("b", Value.stringVal "x")]).length = 32 :=
  ⟨by decide, by decide,
    (row_identifier_deterministic _ _ (by decide) (by decide)).1,
    (row_identifier_deterministic
      [("a", Value.int64Val 1), ("b", Value.stringVal "x")]
      [("b", Value.stringVal "x"), ("a", Value.int64Val 1)]
      (by decide) (by decide)).2.2.2.1⟩

/-! ### Helper lemmas: minibatch partitioning -/

theorem toMinibatchesAux_join (bs : Nat) (hbs : 0 < bs) :
    ∀ (fuel : Nat) (data : List Row), data.length ≤ fuel →
      (toMinibatchesAux bs fuel data).flatten = data := by
  intro fuel
  induction fuel with
  | zero =>
      intro data h
      have hd : data = [] := List.eq_nil_of_length_eq_zero (by omega)
      subst hd
      rfl
  | succ fuel ih =>
      intro data h
      by_cases hd : data = []
      · subst hd
        simp [toMinibatchesAux]
      · have hpos : 0 < data.length := List.length_pos.mpr hd
        have hlen : 0 < (data.take bs).length := by
          rw [List.length_take]
          omega
        have hne : ¬((data.take bs).isEmpty = true) := by
          simp only [List.isEmpty_iff]
          exact List.ne_nil_of_length_pos hlen
        simp only [toMinibatchesAux]
        rw [if_neg hne, List.flatten_cons,
          ih (data.drop bs) (by rw [List.length_drop]; omega)]
        exact List.take_append_drop bs data

theorem toMinibatchesAux_length (bs : Nat) (hbs : 0 < bs) :
    ∀ (fuel : Nat) (data : List Row), data.length ≤ fuel →
      (toMinibatchesAux bs fuel data).length = (data.length + bs - 1) / bs := by
  intro fuel
  induction fuel with
  | zero =>
      intro data h
      have hd : data = [] := List.eq_nil_of_length_eq_zero (by omega)
      subst hd
      simp only [toMinibatchesAux, List.length_nil]
      symm
      apply Nat.div_eq_of_lt
      omega
  | succ fuel ih =>
      intro data h
      by_cases hd : data = []
      · subst hd
        simp only [toMinibatchesAux, List.length_nil]
        rw [List.take_nil]
        simp only [List.isEmpty_nil, if_true, List.length_nil]
        symm
        apply Nat.div_eq_of_lt
        omega
      · have hpos : 0 < data.length := List.length_pos.mpr hd
        have hlen : 0 < (data.take bs).length := by
          rw [List.length_take]
          omega
        have hne : ¬((data.take bs).isEmpty = true) := by
          simp only [List.isEmpty_iff]
          exact List.ne_nil_of_length_pos hlen
        simp only [toMinibatchesAux]
        rw [if_neg hne, List.length_cons,
          ih (data.drop bs) (by rw [List.length_drop]; omega), List.length_drop]
        rw [Nat.div_eq (data.length + bs - 1) bs, if_pos ⟨hbs, by omega⟩]
        have he : data.length + bs - 1 - bs = data.length - 1 := by omega
        rw [he]
        by_cases hc : data.length ≤ bs
        · have h1 : data.length - bs + bs - 1 = bs - 1 := by omega
          rw [h1, Nat.div_eq_of_lt (by omega), Nat.div_eq_of_lt (by omega)]
        · have h1 : data.length - bs + bs - 1 = data.length - 1 := by omega
          rw [h1]

theorem toMinibatchesAux_sizes (bs : Nat) :
    ∀ (fuel : Nat) (data : List Row) (b : List Row), b ∈ toMinibatchesAux bs fuel data →
      b.length ≤ bs ∧ b ≠ [] := by
  intro fuel
  induction fuel with
  | zero =>
      intro data b hb
      simp [toMinibatchesAux] at hb
  | succ fuel ih =>
      intro data b hb
      simp only [toMinibatchesAux] at hb
      by_cases hne : (data.take bs).isEmpty = true
      · rw [if_pos hne] at hb
        simp at hb
      · rw [if_neg hne] at hb
        rcases List.mem_cons.mp hb with hb | hb
        · subst hb
          refine ⟨by rw [List.length_take]; omega, ?_⟩
          simp only [List.isEmpty_iff] at hne
          exact hne
        · exact ih (data.drop bs) b hb

/-! ### Claims C8, C10 -/

/-- C8: `_to_minibatches` partitions N input rows into exactly
`ceil(N / 50)` minibatches (`maxBatchSize = 50`), and no minibatch
contains more than 50 rows. -/
theorem minibatch_partition_count (data : List Row) :
    (_to_minibatches data).length = (data.length + 50 - 1) / 50 ∧
    ∀ b ∈ _to_minibatches data, b.length ≤ 50 := by
  constructor
  · exact toMinibatchesAux_length 50 (by norm_num) data.length data le_rfl
  · intro b hb
    exact (toMinibatchesAux_sizes 50 data.length data b hb).1

/-- Witness for C8: 120 rows split into exactly 3 minibatches. -/
theorem minibatch_partition_count_witness :
    (_to_minibatches (List.replicate 120 (⟨[], [], 0, none⟩ : Row))).length = 3 := by
  have h := (minibatch_partition_count (List.replicate 120 (⟨[], [], 0, none⟩ : Row))).1
  rw [List.length_replicate] at h
  norm_num at h
  exact h

/-- C10: the concatenation of the minibatches equals the input sequence
in order with nothing dropped or duplicated, every yielded minibatch is
non-empty, the empty input yields no minibatch, and `online_write_batch`
on an empty row list leaves the store unchanged and completes without
error. -/
theorem minibatch_partition_exact (data : List Row) (o : Nat → Nat → TxOutcome)
    (p tn : String) (st : Store) :
    (_to_minibatches data).flatten = data ∧
    (∀ b ∈ _to_minibatches data, b ≠ []) ∧
    _to_minibatches ([] : List Row) = [] ∧
    online_write_batch o p tn [] st = (st, [], none) :=
  ⟨toMinibatchesAux_join 50 (by norm_num) data.length data le_rfl,
    fun b hb => (toMinibatchesAux_sizes 50 data.length data b hb).2, rfl, rfl⟩

/-- Witness for C10 at a concrete two-row input. -/
theorem minibatch_partition_exact_witness :
    (_to_minibatches
      [(⟨[("a", Value.int64Val 1)], [], 3, none⟩ : Row),
       (⟨[("b", Value.int64Val 2)], [], 4, none⟩ : Row)]).flatten =
      [(⟨[("a", Value.int64Val 1)], [], 3, none⟩ : Row),
       (⟨[("b", Value.int64Val 2)], [], 4, none⟩ : Row)] :=
  (minibatch_partition_exact _ okOutcome "p" "t" []).1

/-! ### Helper lemmas: retry loop -/

theorem writeMinibatchGo_congr (o o' : Nat → TxOutcome) (c : Store) (ev : List Nat) :
    ∀ (ns : List Nat) (acc : List Nat), (∀ n ∈ ns, o n = o' n) →
      writeMinibatchGo o c ev ns acc = writeMinibatchGo o' c ev ns acc := by
  intro ns
  induction ns with
  | nil =>
      intro acc h
      rfl
  | cons n rest ih =>
      intro acc h
      have hn : o n = o' n := h n (List.mem_cons_self n rest)
      cases hout : o' n with
      | ok => simp only [writeMinibatchGo, hn, hout]
      | fatal => simp only [writeMinibatchGo, hn, hout]
      | conflict =>
          simp only [writeMinibatchGo, hn, hout]
          cases rest with
          | nil => rfl
          | cons m ms =>
              exact ih (acc ++ ev) (fun x hx => h x (List.mem_cons_of_mem n hx))

/-! ### Claim C5 -/

/-- C5: a minibatch whose backend conflicts exactly twice and then
succeeds is committed without error; a backend that always conflicts is
attempted exactly `num_retries_on_conflict = 3` times (only attempts
below the bound are ever consulted) and the conflict error is re-raised;
and any backend error other than a transient conflict propagates
immediately without any retry. -/
theorem retry_bound (p tn : String) (data : List Row) (st : Store) :
    (∀ o : Nat → TxOutcome, o 0 = .conflict → o 1 = .conflict → o 2 = .ok →
      (_write_minibatch o p tn data st).2 = .ok (processRows p tn st data).1) ∧
    (∀ o : Nat → TxOutcome, (∀ n, o n = .conflict) →
      (_write_minibatch o p tn data st).2 = .error .conflict) ∧
    (∀ o o' : Nat → TxOutcome, (∀ n, n < num_retries_on_conflict → o n = o' n) →
      _write_minibatch o p tn data st = _write_minibatch o' p tn data st) ∧
    (∀ o : Nat → TxOutcome, o 0 = .fatal →
      _write_minibatch o p tn data st = ((processRows p tn st data).2, .error .backend)) := by
  have hr : List.range num_retries_on_conflict = [0, 1, 2] := rfl
  refine ⟨?_, ?_, ?_, ?_⟩
  · intro o h0 h1 h2
    simp only [_write_minibatch, hr, writeMinibatchGo, h0, h1, h2]
  · intro o h
    simp only [_write_minibatch, hr, writeMinibatchGo, h]
  · intro o o' h
    simp only [_write_minibatch, hr]
    apply writeMinibatchGo_congr
    intro n hn
    apply h
    have h3 : num_retries_on_conflict = 3 := rfl
    rw [h3]
    simp only [List.mem_cons, List.not_mem_nil, or_false] at hn
    rcases hn with hn | hn | hn <;> omega
  · intro o h0
    simp only [_write_minibatch, hr, writeMinibatchGo, h0, List.nil_append]

/-- Witness for C5: concrete outcome schedules on a one-row minibatch. -/
theorem retry_bound_witness :
    (_write_minibatch (fun _ => TxOutcome.conflict) "p" "t"
      [⟨[("driver", Value.int64Val 1)], [], 5, none⟩] []).2 = .error .conflict ∧
    (_write_minibatch (fun n => if n < 2 then TxOutcome.conflict else .ok) "p" "t"
      [⟨[("driver", Value.int64Val 1)], [], 5, none⟩] []).2 =
      .ok (processRows "p" "t" []
        [⟨[("driver", Value.int64Val 1)], [], 5, none⟩]).1 ∧
    (_write_minibatch (fun _ => TxOutcome.fatal) "p" "t"
      [⟨[("driver", Value.int64Val 1)], [], 5, none⟩] []).2 = .error .backend :=
  ⟨(retry_bound "p" "t" [⟨[("driver", Value.int64Val 1)], [], 5, none⟩] []).2.1
      (fun _ => TxOutcome.conflict) (fun _ => rfl),
    (retry_bound "p" "t" [⟨[("driver", Value.int64Val 1)], [], 5, none⟩] []).1
      (fun n => if n < 2 then TxOutcome.conflict else .ok) rfl rfl rfl,
    congrArg Prod.snd ((retry_bound "p" "t"
      [⟨[("driver", Value.int64Val 1)], [], 5, none⟩] []).2.2.2
      (fun _ => TxOutcome.fatal) rfl)⟩

/-! ### Claim C7 (corrected) -/

/-- Counterexample to C7 as stated: a successful single-attempt minibatch
of one row that the freshness rule skips (the stored record has event
timestamp 10, the incoming row 5) invokes the progress callback zero
times, not once; the write succeeds and leaves the store unchanged. -/
theorem progress_per_row_counterexample :
    (_write_minibatch (fun _ => .ok) "p" "t"
      [⟨[("driver", Value.int64Val 1)], [("v", Value.int64Val 9)], 5, none⟩]
      [(("p", "t", compute_datastore_entity_id [("driver", Value.int64Val 1)]),
        ⟨[], [], 10, none⟩)]).1.length = 0 ∧
    [(⟨[("driver", Value.int64Val 1)], [("v", Value.int64Val 9)], 5, none⟩ : Row)].length = 1 ∧
    (_write_minibatch (fun _ => .ok) "p" "t"
      [⟨[("driver", Value.int64Val 1)], [("v", Value.int64Val 9)], 5, none⟩]
      [(("p", "t", compute_datastore_entity_id [("driver", Value.int64Val 1)]),
        ⟨[], [], 10, none⟩)]).2 =
      .ok [(("p", "t", compute_datastore_entity_id [("driver", Value.int64Val 1)]),
        ⟨[], [], 10, none⟩)] := by
  set_option maxRecDepth 20000 in
  exact ⟨rfl, rfl, rfl⟩

/-- C7 amended: on a successful single-attempt minibatch the progress
callback is invoked exactly once per row actually written; rows skipped
by the freshness rule do not invoke it, so after a successful
single-attempt minibatch of N rows with s skipped rows the callback has
been invoked N - s times. A row is skipped exactly when a stored record
exists whose event timestamp is strictly newer, or is equal with a
strictly newer present created timestamp. -/
theorem progress_per_written_row (p tn : String) (data : List Row) (st : Store) :
    (∀ o : Nat → TxOutcome, o 0 = .ok →
      (_write_minibatch o p tn data st).1 = (processRows p tn st data).2) ∧
    (∀ st' : Store, (processRows p tn st' ([] : List Row)).2 = []) ∧
    (∀ (st' : Store) (r : Row) (rest : List Row),
      (processRows p tn st' (r :: rest)).2 =
        (if (writeRow p tn st' r).2 then [1] else []) ++
          (processRows p tn (writeRow p tn st' r).1 rest).2) ∧
    (∀ (st' : Store) (r : Row),
      (writeRow p tn st' r).2 = false ↔
        ∃ e, storeGet st' (p, tn, compute_datastore_entity_id r.entity_key) = some e ∧
          (e.event_ts > make_tzaware r.timestamp ∨
            (e.event_ts = make_tzaware r.timestamp ∧
              createdNewer r.created_ts e.created_ts = true))) := by
  have hr : List.range num_retries_on_conflict = [0, 1, 2] := rfl
  refine ⟨?_, fun st' => rfl, fun st' r rest => rfl, ?_⟩
  · intro o h0
    simp only [_write_minibatch, hr, writeMinibatchGo, h0, List.nil_append]
  · intro st' r
    cases hg : storeGet st' (p, tn, compute_datastore_entity_id r.entity_key) with
    | none =>
        rw [writeRow_none p tn st' r hg]
        simp [hg]
    | some e =>
        by_cases hgt : e.event_ts > make_tzaware r.timestamp
        · rw [writeRow_skip_newer p tn st' r e hg hgt]
          simp only [hg, Option.some.injEq]
          constructor
          · intro _
            exact ⟨e, rfl, Or.inl hgt⟩
          · intro _
            trivial
        · by_cases heq : e.event_ts = make_tzaware r.timestamp
          · rw [writeRow_eq_ts p tn st' r e hg heq]
            cases hcn : createdNewer r.created_ts e.created_ts with
            | true =>
                simp only [if_true, hg, Option.some.injEq]
                constructor
                · intro _
                  exact ⟨e, rfl, Or.inr ⟨heq, hcn⟩⟩
                · intro _
                  trivial
            | false =>
                simp only [Bool.false_eq_true, if_false, hg, Option.some.injEq]
                constructor
                · intro hcontra
                  exact absurd hcontra (by simp)
                · rintro ⟨e', he', hcase⟩
                  subst he'
                  rcases hcase with hcase | hcase
                  · exact absurd hcase hgt
                  · rw [hcase.2] at hcn
                    exact absurd hcn (by simp)
          · have hlt : make_tzaware r.timestamp > e.event_ts := by omega
            rw [writeRow_replace_newer p tn st' r e hg hlt]
            simp only [hg, Option.some.injEq]
            constructor
            · intro hcontra
              exact absurd hcontra (by simp)
            · rintro ⟨e', he', hcase⟩
              subst he'
              rcases hcase with hcase | hcase
              · exact absurd hcase hgt
              · exact absurd hcase.1 heq

/-- Witness for the amended C7: a single written row invokes the
callback exactly once. -/
theorem progress_per_written_row_witness :
    (_write_minibatch (fun _ => .ok) "p" "t"
      [⟨[("driver", Value.int64Val 1)], [("v", Value.int64Val 3)], 5, none⟩] []).1 = [1] := by
  have h := (progress_per_written_row "p" "t"
    [⟨[("driver", Value.int64Val 1)], [("v", Value.int64Val 3)], 5, none⟩] []).1
    (fun _ => .ok) rfl
  rw [h]
  set_option maxRecDepth 20000 in
  rfl

/-! ### Claim C6 -/

/-- C6: `online_read` returns exactly one result per input key, in input
order: the i-th result corresponds to the i-th key; a key with a stored
record yields its event timestamp and decoded feature-value mapping (and
for a record written from a row, the decoded mapping is exactly the
row's feature mapping); a key with no stored record yields
`(none, none)` rather than an error. -/
theorem online_read_per_key (p tn : String) (st : Store) (keys : List EntityKey) :
    (online_read p tn st keys).length = keys.length ∧
    (∀ (i : Nat) (k : EntityKey), keys[i]? = some k →
      storeGet st (p, tn, compute_datastore_entity_id k) = none →
      (online_read p tn st keys)[i]? = some (none, none)) ∧
    (∀ (i : Nat) (k : EntityKey) (e : DsEntity), keys[i]? = some k →
      storeGet st (p, tn, compute_datastore_entity_id k) = some e →
      (online_read p tn st keys)[i]? =
        some (some e.event_ts, some (e.values.map (fun kv => (kv.1, parseValue kv.2))))) ∧
    (∀ (i : Nat) (k : EntityKey) (r : Row), keys[i]? = some k →
      storeGet st (p, tn, compute_datastore_entity_id k) = some (entityOfRow r) →
      (online_read p tn st keys)[i]? =
        some (some (make_tzaware r.timestamp),
          some (r.features.map (fun kv => (kv.1, some kv.2))))) := by
  refine ⟨List.length_map _ _, ?_, ?_, ?_⟩
  · intro i k hk hget
    simp only [online_read, List.getElem?_map, hk, Option.map_some']
    simp only [hget]
  · intro i k e hk hget
    simp only [online_read, List.getElem?_map, hk, Option.map_some']
    simp only [hget]
  · intro i k r hk hget
    simp only [online_read, List.getElem?_map, hk, Option.map_some']
    simp only [hget]
    have hfun : (fun kv : String × List Nat => (kv.1, parseValue kv.2)) ∘
        (fun kv : String × Value => (kv.1, serializeValue kv.2)) =
        (fun kv : String × Value => (kv.1, some kv.2)) := by
      funext kv
      simp [Function.comp, parseValue_serializeValue]
    simp only [entityOfRow, List.map_map, hfun]

/-- Witness for C6: reading a written key and a missing key. -/
theorem online_read_per_key_witness :
    ([[("driver", Value.int64Val 1)]] : List EntityKey)[0]? =
      some [("driver", Value.int64Val 1)] ∧
    storeGet
      (storePut [] ("p", "t", compute_datastore_entity_id [("driver", Value.int64Val 1)])
        (entityOfRow ⟨[("driver", Value.int64Val 1)], [("v", Value.int64Val 6)], 8, none⟩))
      ("p", "t", compute_datastore_entity_id [("driver", Value.int64Val 1)]) =
      some (entityOfRow ⟨[("driver", Value.int64Val 1)], [("v", Value.int64Val 6)], 8, none⟩) ∧
    (online_read "p" "t"
      (storePut [] ("p", "t", compute_datastore_entity_id [("driver", Value.int64Val 1)])
        (entityOfRow ⟨[("driver", Value.int64Val 1)], [("v", Value.int64Val 6)], 8, none⟩))
      [[("driver", Value.int64Val 1)]])[0]? =
      some (some (make_tzaware 8), some [("v", some (Value.int64Val 6))]) :=
  ⟨rfl, storeGet_storePut_same _ _ _,
    (online_read_per_key "p" "t"
      (storePut [] ("p", "t", compute_datastore_entity_id [("driver", Value.int64Val 1)])
        (entityOfRow ⟨[("driver", Value.int64Val 1)], [("v", Value.int64Val 6)], 8, none⟩))
      [[("driver", Value.int64Val 1)]]).2.2.2 0 [("driver", Value.int64Val 1)]
      ⟨[("driver", Value.int64Val 1)], [("v", Value.int64Val 6)], 8, none⟩ rfl
      (storeGet_storePut_same _ _ _)⟩

/-! ### Helper lemmas: delete-all loop -/

theorem length_filter_lt_of_exists {α : Type} (l : List α) (p : α → Bool)
    (h : ∃ x ∈ l, p x = false) : (l.filter p).length < l.length := by
  induction l with
  | nil => simp at h
  | cons a rest ih =>
      rcases h with ⟨x, hx, hpx⟩
      rcases List.mem_cons.mp hx with hx | hx
      · subst hx
        rw [List.filter_cons]
        simp only [hpx, Bool.false_eq_true, if_false, List.length_cons]
        have := List.length_filter_le p rest
        omega
      · rw [List.filter_cons]
        by_cases hpa : p a
        · simp only [hpa, if_true, List.length_cons]
          have := ih ⟨x, hx, hpx⟩
          omega
        · simp only [hpa, Bool.false_eq_true, if_false, List.length_cons]
          have := ih ⟨x, hx, hpx⟩
          omega

theorem deleteAllAux_spec (p tn : String) :
    ∀ (fuel : Nat) (st : Store), st.length ≤ fuel →
      deleteAllAux p tn fuel st = st.filter (fun e => !(underTable p tn e.1)) := by
  intro fuel
  induction fuel with
  | zero =>
      intro st h
      have hd : st = [] := List.eq_nil_of_length_eq_zero (by omega)
      subst hd
      rfl
  | succ fuel ih =>
      intro st h
      by_cases hp :
          ((st.filter (fun e => underTable p tn e.1)).take deletePageSize).isEmpty = true
      · simp only [deleteAllAux]
        rw [if_pos hp]
        rw [List.isEmpty_iff, List.take_eq_nil_iff] at hp
        have hnone : st.filter (fun e => underTable p tn e.1) = [] := by
          rcases hp with hp | hp
          · exact absurd hp (by norm_num [deletePageSize])
          · exact hp
        have hall := List.filter_eq_nil_iff.mp hnone
        symm
        apply List.filter_eq_self.mpr
        intro a ha
        have := hall a ha
        simp only [Bool.not_eq_true'] at this ⊢
        simp [this]
      · simp only [deleteAllAux]
        rw [if_neg hp]
        have hne : (st.filter (fun e => underTable p tn e.1)).take deletePageSize ≠ [] := by
          intro hcontra
          rw [List.isEmpty_iff] at hp
          exact hp hcontra
        rcases List.exists_mem_of_ne_nil _ hne with ⟨q, hq⟩
        have hqfil : q ∈ st.filter (fun e => underTable p tn e.1) := List.mem_of_mem_take hq
        have hqst : q ∈ st := List.mem_of_mem_filter hqfil
        have hq1 : q.1 ∈ ((st.filter (fun e => underTable p tn e.1)).take deletePageSize).map
            (fun q => q.1) := List.mem_map_of_mem _ hq
        have hx : ∃ x ∈ st,
            (decide (x.1 ∉ ((st.filter (fun e => underTable p tn e.1)).take
              deletePageSize).map (fun q => q.1))) = false := by
          refine ⟨q, hqst, ?_⟩
          rw [decide_eq_false_iff_not]
          exact not_not_intro hq1
        have hlt := length_filter_lt_of_exists st _ hx
        rw [ih _ (by omega)]
        rw [List.filter_filter]
        apply List.filter_congr
        intro a ha
        by_cases hu : underTable p tn a.1 = true
        · simp [hu]
        · have hnotin : a.1 ∉ ((st.filter (fun e => underTable p tn e.1)).take
              deletePageSize).map (fun q => q.1) := by
            intro hmem
            rcases List.mem_map.mp hmem with ⟨b, hb, hb1⟩
            have hbf : b ∈ st.filter (fun e => underTable p tn e.1) :=
              List.mem_of_mem_take hb
            have hbu : underTable p tn b.1 = true := by
              have := (List.mem_filter.mp hbf).2
              simpa using this
            rw [hb1] at hbu
            exact hu hbu
          rw [List.map_take] at hnotin
          simp [hu, hnotin]

/-! ### Claim C9 -/

/-- C9: `_delete_all_values` removes exactly the stored rows under the
table's key path (fetching in pages of at most 1000 and repeating until a
fetch returns no rows), leaves rows of other tables and projects intact,
and is idempotent: on a store with no rows under the table it deletes
nothing and returns the store unchanged. -/
theorem delete_all_values_spec (p tn : String) (st : Store) :
    _delete_all_values st p tn = st.filter (fun e => !(underTable p tn e.1)) ∧
    (∀ e ∈ _delete_all_values st p tn, underTable p tn e.1 = false) ∧
    (st.filter (fun e => underTable p tn e.1) = [] → _delete_all_values st p tn = st) := by
  have hmain := deleteAllAux_spec p tn st.length st le_rfl
  refine ⟨hmain, ?_, ?_⟩
  · intro e he
    rw [show _delete_all_values st p tn = deleteAllAux p tn st.length st from rfl,
      hmain] at he
    have := (List.mem_filter.mp he).2
    simpa using this
  · intro hempty
    rw [show _delete_all_values st p tn = deleteAllAux p tn st.length st from rfl, hmain]
    apply List.filter_eq_self.mpr
    intro a ha
    have := List.filter_eq_nil_iff.mp hempty a ha
    simpa using this

/-- Witness for C9: a three-row store with two rows under the table. -/
theorem delete_all_values_spec_witness :
    ([(("p", "t", "a"), (⟨[], [], 1, none⟩ : DsEntity)),
      (("q", "t", "b"), (⟨[], [], 2, none⟩ : DsEntity)),
      (("p", "t", "c"), (⟨[], [], 3, none⟩ : DsEntity))] : Store).filter
        (fun e => underTable "p" "t" e.1) ≠ [] ∧
    _delete_all_values
      [(("p", "t", "a"), (⟨[], [], 1, none⟩ : DsEntity)),
       (("q", "t", "b"), (⟨[], [], 2, none⟩ : DsEntity)),
       (("p", "t", "c"), (⟨[], [], 3, none⟩ : DsEntity))] "p" "t" =
      [(("q", "t", "b"), (⟨[], [], 2, none⟩ : DsEntity))] := by
  constructor
  · decide
  · have h := (delete_all_values_spec "p" "t"
      [(("p", "t", "a"), (⟨[], [], 1, none⟩ : DsEntity)),
       (("q", "t", "b"), (⟨[], [], 2, none⟩ : DsEntity)),
       (("p", "t", "c"), (⟨[], [], 3, none⟩ : DsEntity))]).1
    rw [h]
    rfl

/-! ### Claim C4 -/

/-- C4: in `materialize_single_feature_view` the interval
`(start_date, end_date)` is appended to the view's
materialization-interval list and the view is persisted via the registry
if and only if the batched write completes without error: if
`online_write_batch` surfaces an error, the view and the registry are
unchanged and the error propagates; on success exactly one interval is
appended and the updated view is applied to the registry once. -/
theorem materialize_record_iff_commit (o : Nat → Nat → TxOutcome) (p : String)
    (fv : FeatureViewM) (rows : List Row) (s e : Int) (st : Store)
    (applied : List (String × FeatureViewM)) :
    (∀ err, (online_write_batch o p fv.name rows st).2.2 = some err →
      materialize_single_feature_view o p fv rows s e st applied =
        ((fv, (online_write_batch o p fv.name rows st).1, applied), some err)) ∧
    ((online_write_batch o p fv.name rows st).2.2 = none →
      (materialize_single_feature_view o p fv rows s e st applied).1.1.materialization_intervals
          = fv.materialization_intervals ++ [(make_tzaware s, make_tzaware e)] ∧
      (materialize_single_feature_view o p fv rows s e st applied).1.2.2 =
        applied ++ [(p, (materialize_single_feature_view o p fv rows s e st applied).1.1)] ∧
      (materialize_single_feature_view o p fv rows s e st applied).2 = none) := by
  constructor
  · intro err herr
    rcases howb : online_write_batch o p fv.name rows st with ⟨st', ev, err'⟩
    rw [howb] at herr
    simp only [] at herr
    subst herr
    simp only [materialize_single_feature_view, howb]
  · intro hnone
    rcases howb : online_write_batch o p fv.name rows st with ⟨st', ev, err'⟩
    rw [howb] at hnone
    simp only [] at hnone
    subst hnone
    simp only [materialize_single_feature_view, howb]
    refine ⟨?_, ?_, ?_⟩ <;> trivial

/-- Witness for C4: a successful write appends exactly one interval, a
fatally failing write leaves the interval list and registry unchanged. -/
theorem materialize_record_iff_commit_witness :
    (online_write_batch okOutcome "proj" (FeatureViewM.mk "fv" []).name [] []).2.2 = none ∧
    (materialize_single_feature_view okOutcome "proj" ⟨"fv", []⟩ [] 1 2 []
        []).1.1.materialization_intervals =
      ([] : List (Int × Int)) ++ [(make_tzaware 1, make_tzaware 2)] ∧
    (materialize_single_feature_view okOutcome "proj" ⟨"fv", []⟩ [] 1 2 [] []).2 = none ∧
    (materialize_single_feature_view (fun _ _ => TxOutcome.fatal) "proj" ⟨"fv", []⟩
        [⟨[("driver", Value.int64Val 1)], [], 5, none⟩] 1 2 []
        []).1.1.materialization_intervals = [] ∧
    (materialize_single_feature_view (fun _ _ => TxOutcome.fatal) "proj" ⟨"fv", []⟩
        [⟨[("driver", Value.int64Val 1)], [], 5, none⟩] 1 2 [] []).1.2.2 = [] ∧
    (materialize_single_feature_view (fun _ _ => TxOutcome.fatal) "proj" ⟨"fv", []⟩
        [⟨[("driver", Value.int64Val 1)], [], 5, none⟩] 1 2 [] []).2 =
      some WError.backend := by
  have hok := (materialize_record_iff_commit okOutcome "proj" ⟨"fv", []⟩ [] 1 2 [] []).2 rfl
  have herr := (materialize_record_iff_commit (fun _ _ => TxOutcome.fatal) "proj" ⟨"fv", []⟩
    [⟨[("driver", Value.int64Val 1)], [], 5, none⟩] 1 2 [] []).1 WError.backend
    (by set_option maxRecDepth 20000 in exact rfl)
  refine ⟨rfl, hok.1, hok.2.2, ?_, ?_, ?_⟩
  · rw [herr]
  · rw [herr]
  · rw [herr]

end Feast
